import Mathlib

/-!
Shallow embedding of `src/include/marvin/math/marvin_Math.h` (namespace
`marvin::math`) over the real numbers.  Floating-point values of the generic
`FloatType T` are modelled as `ℝ`; `std::span`s are modelled as `List`s of
their element contents; `std::complex<T>` is modelled as a pair `ℝ × ℝ`
(real part, imaginary part), matching the binary-layout invariant the header
relies on.  Each definition mirrors the corresponding C++ function body.
-/

namespace marvin

namespace utils

/-- Modelled from the spec: `marvin::utils::Range<T>` from
`marvin_Range.h` (not under `src/`), described in the spec as "an external,
caller-owned pair (min, max) of the same generic floating type". -/
structure Range where
  min : ℝ
  max : ℝ

end utils

namespace math

/-- `lerp(start, end, ratio)`: returns `start + (end - start) * ratio`. -/
def lerp (start stop ratio : ℝ) : ℝ :=
  start + (stop - start) * ratio

/-- `remap(x, newMin, newMax)`: rescales a 0..1 value into
`newMin..newMax` via `(x * (newMax - newMin)) + newMin`. -/
def remap (x newMin newMax : ℝ) : ℝ :=
  (x * (newMax - newMin)) + newMin

/-- `remap(x, srcMin, srcMax, newMin, newMax)`: normalises
`x` from `srcMin..srcMax` via `(x - srcMin) / (srcMax - srcMin)`, then
delegates to the three-argument `remap`. -/
noncomputable def remapFull (x srcMin srcMax newMin newMax : ℝ) : ℝ :=
  remap ((x - srcMin) / (srcMax - srcMin)) newMin newMax

/-- `remap(x, srcRange, newRange)`: unpacks the two ranges and delegates
to the five-argument form. -/
noncomputable def remapRanges (x : ℝ) (srcRange newRange : utils.Range) : ℝ :=
  remapFull x srcRange.min srcRange.max newRange.min newRange.max

/-- `remap(x, newRange)`: unpacks the range and delegates to the
three-argument form. -/
def remapRange (x : ℝ) (newRange : utils.Range) : ℝ :=
  remap x newRange.min newRange.max

/-- `rms(std::span<T>)`: returns 0 on an empty span, otherwise
`sqrt(sum / size)` where `sum` is the left fold `acc + next * next`
starting from 0, in element order. -/
noncomputable def rms (data : List ℝ) : ℝ :=
  if data.isEmpty then 0
  else
    let sum := data.foldl (fun acc next => acc + next * next) 0
    let mean := sum / (data.length : ℝ)
    Real.sqrt mean

/-- The lambda `getChannelMean` inside `rms(std::span<std::span<T>>)`:
0 for an empty channel, otherwise the channel's sum of squares divided by
its size (no square root). -/
noncomputable def getChannelMean (channel : List ℝ) : ℝ :=
  if channel.isEmpty then 0
  else (channel.foldl (fun acc next => acc + next * next) 0) / (channel.length : ℝ)

/-- `rms(std::span<std::span<T>>)`: returns 0 on an empty outer span,
otherwise `sqrt(sum / size)` where `sum` is the left fold of
`acc + getChannelMean(next)` over the channels starting from 0. -/
noncomputable def rmsMulti (data : List (List ℝ)) : ℝ :=
  if data.isEmpty then 0
  else
    let sum := data.foldl (fun acc next => acc + getChannelMean next) 0
    let mean := sum / (data.length : ℝ)
    Real.sqrt mean

/-- `interleavedToComplexView(std::span<T>)`: reinterprets an interleaved
`[re, im, re, im, ...]` buffer as a span of `data.size() / 2` complex
values over the same memory.  Modelled on contents: consecutive pairs of
reals become (real, imaginary) pairs.  (The C++ `assert(data.size() % 2 == 0)`
is a debug-time check only; the view itself has length `size / 2` with
integer division.) -/
def interleavedToComplexView : List ℝ → List (ℝ × ℝ)
  | re :: im :: rest => (re, im) :: interleavedToComplexView rest
  | _ => []

/-- `complexViewToInterleaved(std::span<std::complex<T>>)`: reinterprets a
span of `data.size()` complex values as an interleaved buffer of
`data.size() * 2` reals over the same memory.  Modelled on contents: each
(real, imaginary) pair becomes two consecutive reals. -/
def complexViewToInterleaved : List (ℝ × ℝ) → List ℝ
  | (re, im) :: rest => re :: im :: complexViewToInterleaved rest
  | [] => []

/-- The `epsilon` constant in `sinc`: `static_cast<T>(1e-6)`. -/
noncomputable def sincEpsilon : ℝ := 1e-6

/-- `sinc(x)`: returns 1 when `|x| < epsilon`, otherwise
`sin(x * pi) / (x * pi)`. -/
noncomputable def sinc (x : ℝ) : ℝ :=
  if |x| < sincEpsilon then 1
  else
    let xPi := x * Real.pi
    Real.sin xPi / xPi

end math

end marvin

namespace marvin.math

/-! ### Helper lemmas -/

/-- The square-accumulating left fold equals the accumulator plus the sum
of squares. -/
lemma foldl_sq (l : List ℝ) (a : ℝ) :
    l.foldl (fun acc next => acc + next * next) a = a + (l.map fun x => x * x).sum := by
  induction l generalizing a with
  | nil => simp
  | cons x xs ih => simp [List.foldl_cons, ih, add_assoc]

/-- The channel-mean-accumulating left fold equals the accumulator plus the
sum of channel means. -/
lemma foldl_channelMean (l : List (List ℝ)) (a : ℝ) :
    l.foldl (fun acc next => acc + getChannelMean next) a
      = a + (l.map getChannelMean).sum := by
  induction l generalizing a with
  | nil => simp
  | cons x xs ih => simp [List.foldl_cons, ih, add_assoc]

/-- Spec-side description of a channel's contribution to the multichannel
RMS: its *mean squared value*, with an empty channel contributing 0. -/
noncomputable def specChannelMeanSq (channel : List ℝ) : ℝ :=
  if channel = [] then 0
  else (channel.map fun x => x ^ 2).sum / (channel.length : ℝ)

/-- The code's `getChannelMean` computes exactly the spec's per-channel
mean squared value. -/
lemma getChannelMean_eq_spec (channel : List ℝ) :
    getChannelMean channel = specChannelMeanSq channel := by
  rcases eq_or_ne channel [] with h | h
  · simp [h, getChannelMean, specChannelMeanSq]
  · unfold getChannelMean specChannelMeanSq
    rw [if_neg h, if_neg (by simpa [List.isEmpty_iff] using h), foldl_sq]
    simp [pow_two]

/-! ### Claim theorems -/

/-- C9: the range-taking remap overloads unpack (min, max) and delegate to
the base forms: `remap(x, srcRange, newRange)` equals
`remap(x, srcRange.min, srcRange.max, newRange.min, newRange.max)` and
`remap(x, newRange)` equals `remap(x, newRange.min, newRange.max)`. -/
theorem remap_range_overloads_delegate (x : ℝ) (srcRange newRange : utils.Range) :
    remapRanges x srcRange newRange
        = remapFull x srcRange.min srcRange.max newRange.min newRange.max
      ∧ remapRange x newRange = remap x newRange.min newRange.max :=
  ⟨rfl, rfl⟩

/-- C10: the two-argument-range remap coincides with lerp with its
arguments reordered: `remap(x, newMin, newMax) == lerp(newMin, newMax, x)`. -/
theorem remap_eq_lerp (x newMin newMax : ℝ) :
    remap x newMin newMax = lerp newMin newMax x := by
  unfold remap lerp
  ring

/-- C7: for x in [lo, hi] with lo ≠ hi, the five-argument remap with
identical source and destination ranges is the identity:
`remap(x, lo, hi, lo, hi) == x` (over exact arithmetic). -/
theorem remapFull_same_range_id (x lo hi : ℝ) (hne : lo ≠ hi)
    (hmem : x ∈ Set.Icc lo hi) :
    remapFull x lo hi lo hi = x := by
  have hsub : hi - lo ≠ 0 := sub_ne_zero.mpr (Ne.symm hne)
  unfold remapFull remap
  field_simp

/-- Witness for C7 at x = 1, lo = 0, hi = 2. -/
theorem remapFull_same_range_id_witness :
    remapFull 1 0 2 0 2 = 1 :=
  remapFull_same_range_id 1 0 2 (by norm_num) (by norm_num [Set.mem_Icc])

/-- C6: for every x, `sinc(x)` returns exactly 1 when |x| < 1e-6, and
`sin(pi * x) / (pi * x)` otherwise; in particular `sinc(0) == 1`. -/
theorem sinc_guard_and_value :
    (∀ x : ℝ, sinc x = if |x| < (1e-6 : ℝ) then 1
        else Real.sin (Real.pi * x) / (Real.pi * x))
      ∧ sinc 0 = 1 := by
  have h : ∀ x : ℝ, sinc x = if |x| < (1e-6 : ℝ) then 1
      else Real.sin (Real.pi * x) / (Real.pi * x) := by
    intro x
    simp only [sinc, sincEpsilon]
    rw [mul_comm x Real.pi]
  refine ⟨h, ?_⟩
  rw [h 0]
  norm_num

/-- C5: the single-sequence rms returns exactly 0 on the empty input, and
`sqrt((x_1^2 + ... + x_n^2) / n)` on every non-empty input of length n. -/
theorem rms_spec :
    rms [] = 0
      ∧ ∀ data : List ℝ, data ≠ [] →
          rms data = Real.sqrt ((data.map fun x => x ^ 2).sum / (data.length : ℝ)) := by
  constructor
  · simp [rms]
  · intro data h
    unfold rms
    rw [if_neg (by simpa [List.isEmpty_iff] using h)]
    rw [foldl_sq]
    simp [pow_two]

/-- Witness for C5: rms([3]) = sqrt(3^2 / 1) = 3. -/
theorem rms_spec_witness : rms [3] = 3 := by
  have h := rms_spec.2 [3] (by simp)
  rw [h]
  norm_num
  rw [show (9 : ℝ) = 3 ^ 2 by norm_num, Real.sqrt_sq (by norm_num)]

/-- C8: both rms forms are nonnegative on every input, and the
multichannel rms returns 0 when the outer sequence is empty or when all
inner sequences are empty. -/
theorem rms_nonneg_and_empty :
    (∀ data : List ℝ, 0 ≤ rms data)
      ∧ (∀ data : List (List ℝ), 0 ≤ rmsMulti data)
      ∧ rmsMulti [] = 0
      ∧ ∀ data : List (List ℝ), (∀ c ∈ data, c = []) → rmsMulti data = 0 := by
  refine ⟨?_, ?_, by simp [rmsMulti], ?_⟩
  · intro data
    unfold rms
    split
    · exact le_refl 0
    · exact Real.sqrt_nonneg _
  · intro data
    unfold rmsMulti
    split
    · exact le_refl 0
    · exact Real.sqrt_nonneg _
  · intro data hall
    unfold rmsMulti
    split
    · rfl
    · rw [foldl_channelMean]
      have hz : (data.map getChannelMean).sum = 0 := by
        apply List.sum_eq_zero
        intro x hx
        rcases List.mem_map.mp hx with ⟨c, hc, hcx⟩
        rw [← hcx, hall c hc]
        simp [getChannelMean]
      rw [hz]
      simp

/-- Witness for C8: the multichannel rms of two empty channels is 0, and
it is nonnegative at a concrete input. -/
theorem rms_nonneg_and_empty_witness :
    rmsMulti [[], []] = 0 ∧ 0 ≤ rms [1, 2] :=
  ⟨rms_nonneg_and_empty.2.2.2 [[], []] (by simp),
   rms_nonneg_and_empty.1 [1, 2]⟩

/-! ### Lemmas about the reinterpreting views -/

/-- The complex view of an interleaved buffer has length `size / 2`
(integer division, so this holds with or without the evenness
precondition). -/
lemma length_interleavedToComplexView :
    ∀ data : List ℝ, (interleavedToComplexView data).length = data.length / 2 := by
  intro data
  induction data using interleavedToComplexView.induct with
  | case1 re im rest ih =>
    simp only [interleavedToComplexView, List.length_cons, ih]
    omega
  | case2 x hx =>
    cases x with
    | nil => simp [interleavedToComplexView]
    | cons a t =>
      cases t with
      | nil => simp [interleavedToComplexView]
      | cons b t2 => exact absurd rfl (hx a b t2)

/-- Element `i` of the complex view pairs real elements `2i` and `2i+1`. -/
lemma getD_interleavedToComplexView :
    ∀ (data : List ℝ) (i : ℕ), i < data.length / 2 →
      (interleavedToComplexView data).getD i (0, 0)
        = (data.getD (2 * i) 0, data.getD (2 * i + 1) 0) := by
  intro data
  induction data using interleavedToComplexView.induct with
  | case1 re im rest ih =>
    intro i hi
    cases i with
    | zero => simp [interleavedToComplexView]
    | succ j =>
      have hj : j < rest.length / 2 := by
        simp only [List.length_cons] at hi
        omega
      have h2 : 2 * (j + 1) + 1 = 2 * j + 1 + 1 + 1 := by ring
      have h1 : 2 * (j + 1) = 2 * j + 1 + 1 := by ring
      rw [h2, h1]
      simp only [interleavedToComplexView, List.getD_cons_succ]
      exact ih j hj
  | case2 x hx =>
    intro i hi
    cases x with
    | nil => simp at hi
    | cons a t =>
      cases t with
      | nil =>
        simp only [List.length_cons, List.length_nil] at hi
        omega
      | cons b t2 => exact absurd rfl (hx a b t2)

/-- The interleaved view of a complex buffer has length `2 * size`. -/
lemma length_complexViewToInterleaved :
    ∀ data : List (ℝ × ℝ), (complexViewToInterleaved data).length = 2 * data.length := by
  intro data
  induction data with
  | nil => simp [complexViewToInterleaved]
  | cons p rest ih =>
    obtain ⟨re, im⟩ := p
    simp only [complexViewToInterleaved, List.length_cons, ih]
    omega

/-- Elements `2i` and `2i+1` of the interleaved view are the real and
imaginary parts of complex element `i`. -/
lemma getD_complexViewToInterleaved :
    ∀ (data : List (ℝ × ℝ)) (i : ℕ), i < data.length →
      (complexViewToInterleaved data).getD (2 * i) 0 = (data.getD i (0, 0)).1
        ∧ (complexViewToInterleaved data).getD (2 * i + 1) 0 = (data.getD i (0, 0)).2 := by
  intro data
  induction data with
  | nil => intro i hi; simp at hi
  | cons p rest ih =>
    obtain ⟨re, im⟩ := p
    intro i hi
    cases i with
    | zero => simp [complexViewToInterleaved]
    | succ j =>
      have hj : j < rest.length := by
        simp only [List.length_cons] at hi
        omega
      have h2 : 2 * (j + 1) + 1 = 2 * j + 1 + 1 + 1 := by ring
      have h1 : 2 * (j + 1) = 2 * j + 1 + 1 := by ring
      rw [h2, h1]
      simp only [complexViewToInterleaved, List.getD_cons_succ]
      exact ih j hj

/-! ### Claim theorems for the rms combination and the views -/

/-- C1: for every non-empty outer sequence the multichannel rms is the
square root of the average over channels of each channel's mean squared
value (0 for an empty channel); rms([[1,1],[3,3]]) = sqrt(5), which
differs from the average of the per-channel RMS values. -/
theorem rmsMulti_spec :
    (∀ data : List (List ℝ), data ≠ [] →
        rmsMulti data
          = Real.sqrt ((data.map specChannelMeanSq).sum / (data.length : ℝ)))
      ∧ rmsMulti [[1, 1], [3, 3]] = Real.sqrt 5
      ∧ rmsMulti [[1, 1], [3, 3]] ≠ (rms [1, 1] + rms [3, 3]) / 2 := by
  have h1 : getChannelMean [1, 1] = 1 := by
    norm_num [getChannelMean, List.foldl]
  have h9 : getChannelMean [3, 3] = 9 := by
    norm_num [getChannelMean, List.foldl]
  have hm : rmsMulti [[1, 1], [3, 3]] = Real.sqrt 5 := by
    norm_num [rmsMulti, List.foldl, h1, h9]
  refine ⟨?_, hm, ?_⟩
  · intro data h
    unfold rmsMulti
    rw [if_neg (by simpa [List.isEmpty_iff] using h), foldl_channelMean]
    have : data.map getChannelMean = data.map specChannelMeanSq :=
      List.map_congr_left fun c _ => getChannelMean_eq_spec c
    rw [this]
    simp
  · have hl : rms [1, 1] = 1 := by
      norm_num [rms, List.foldl]
    have hr : rms [3, 3] = 3 := by
      norm_num [rms, List.foldl]
      rw [show (9 : ℝ) = 3 ^ 2 by norm_num, Real.sqrt_sq (by norm_num)]
    rw [hm, hl, hr]
    intro hc
    have h2 : Real.sqrt 5 ^ 2 = 5 := Real.sq_sqrt (by norm_num)
    rw [hc] at h2
    norm_num at h2

/-- Witness for C1: the general formula applied at the concrete input
[[1,1],[3,3]]. -/
theorem rmsMulti_spec_witness :
    rmsMulti [[1, 1], [3, 3]]
      = Real.sqrt ((([[1, 1], [3, 3]] : List (List ℝ)).map specChannelMeanSq).sum
          / (([[1, 1], [3, 3]] : List (List ℝ)).length : ℝ)) :=
  rmsMulti_spec.1 [[1, 1], [3, 3]] (by simp)

/-- C2: for every even-length buffer, converting to the complex view and
back to the interleaved view yields the original buffer (same contents,
hence same length). -/
theorem view_round_trip (b : List ℝ) (heven : b.length % 2 = 0) :
    complexViewToInterleaved (interleavedToComplexView b) = b := by
  induction b using interleavedToComplexView.induct with
  | case1 re im rest ih =>
    simp only [interleavedToComplexView, complexViewToInterleaved,
      List.cons.injEq, true_and]
    refine ih ?_
    simp only [List.length_cons] at heven
    omega
  | case2 x hx =>
    cases x with
    | nil => simp [interleavedToComplexView, complexViewToInterleaved]
    | cons a t =>
      cases t with
      | nil => simp at heven
      | cons b2 t2 => exact absurd rfl (hx a b2 t2)

/-- Witness for C2 at the concrete even-length buffer [1,2,3,4]. -/
theorem view_round_trip_witness :
    complexViewToInterleaved (interleavedToComplexView [1, 2, 3, 4]) = [1, 2, 3, 4] :=
  view_round_trip [1, 2, 3, 4] (by simp)

/-- C3: for an even-length buffer of N reals, the complex view has exactly
N/2 elements and complex element i has real part equal to real element 2i
and imaginary part equal to real element 2i+1. -/
theorem interleavedToComplexView_spec (data : List ℝ) (heven : data.length % 2 = 0) :
    (interleavedToComplexView data).length = data.length / 2
      ∧ ∀ i, i < data.length / 2 →
          (interleavedToComplexView data).getD i (0, 0)
            = (data.getD (2 * i) 0, data.getD (2 * i + 1) 0) :=
  ⟨length_interleavedToComplexView data,
   fun i hi => getD_interleavedToComplexView data i hi⟩

/-- Witness for C3 at the concrete buffer [10, 20]. -/
theorem interleavedToComplexView_spec_witness :
    (interleavedToComplexView [10, 20]).length = ([10, 20] : List ℝ).length / 2
      ∧ (interleavedToComplexView [10, 20]).getD 0 (0, 0)
          = (([10, 20] : List ℝ).getD (2 * 0) 0, ([10, 20] : List ℝ).getD (2 * 0 + 1) 0) :=
  ⟨(interleavedToComplexView_spec [10, 20] (by simp)).1,
   (interleavedToComplexView_spec [10, 20] (by simp)).2 0 (by simp)⟩

/-- C4: for every buffer of M complex values, with no precondition on M,
the interleaved view has exactly 2M elements with real and imaginary parts
interleaved in element order. -/
theorem complexViewToInterleaved_spec (data : List (ℝ × ℝ)) :
    (complexViewToInterleaved data).length = 2 * data.length
      ∧ ∀ i, i < data.length →
          (complexViewToInterleaved data).getD (2 * i) 0 = (data.getD i (0, 0)).1
            ∧ (complexViewToInterleaved data).getD (2 * i + 1) 0 = (data.getD i (0, 0)).2 :=
  ⟨length_complexViewToInterleaved data,
   fun i hi => getD_complexViewToInterleaved data i hi⟩

/-- Witness for C4 at the concrete odd-sized buffer [(1,2)]. -/
theorem complexViewToInterleaved_spec_witness :
    (complexViewToInterleaved [(1, 2)]).length = 2 * ([(1, 2)] : List (ℝ × ℝ)).length
      ∧ (complexViewToInterleaved [(1, 2)]).getD (2 * 0) 0
          = (([(1, 2)] : List (ℝ × ℝ)).getD 0 (0, 0)).1
      ∧ (complexViewToInterleaved [(1, 2)]).getD (2 * 0 + 1) 0
          = (([(1, 2)] : List (ℝ × ℝ)).getD 0 (0, 0)).2 :=
  ⟨(complexViewToInterleaved_spec [(1, 2)]).1,
   ((complexViewToInterleaved_spec [(1, 2)]).2 0 (by simp)).1,
   ((complexViewToInterleaved_spec [(1, 2)]).2 0 (by simp)).2⟩

end marvin.math
